import Mathlib

/-!
Shallow embedding of the reconciliation core of the seller-apis repository
(`src/seller.py` and `src/market.py`).

Conventions of the embedding:
* Supplier rows are `WatchRecord`s.  The SKU field holds the string form of
  the cell, since the Python code applies `str(...)` to it at every use;
  the price field holds the cell's text (the price functions are applied to
  text price cells).  The quantity field holds the raw cell value (`PyVal`):
  the code compares its `str(...)` form against the sentinels but applies
  `int(...)` to the raw value, and the two differ on numeric cells.
* The Python `create_stocks` functions mutate the `offer_ids` list passed by
  the caller (`offer_ids.remove(...)`).  The embedding makes that state
  explicit: each stock-reconciliation function returns the produced stock
  list together with the final state of the `offer_ids` list.
* Python exceptions (`ValueError` from `int(...)`) become `Option`:
  `none` is the aborted call, `some` the normal return.
-/

/-- Models the whitespace class stripped by the Python built-in `int` when
given a string argument. -/
def isPySpace (c : Char) : Bool :=
  c == ' ' || c == '\t' || c == '\n' || c == '\r' || c == '\x0b' || c == '\x0c'

/-- Value of a non-empty run of ASCII decimal digits; `none` when the list is
empty or contains a non-digit character. -/
def digitsVal (ds : List Char) : Option Nat :=
  if ds.isEmpty then none
  else if ds.all Char.isDigit then
    some (ds.foldl (fun a c => 10 * a + (c.toNat - Char.toNat '0')) 0)
  else none

/-- Whitespace stripping on both ends, as Python `int(str)` performs. -/
def pyStrip (l : List Char) : List Char :=
  ((l.dropWhile isPySpace).reverse.dropWhile isPySpace).reverse

/-- Models the Python built-in `int(s)` on a string argument: optional
surrounding whitespace, an optional sign, then ASCII decimal digits.
`none` models the `ValueError` raised on anything else.  (Underscore digit
grouping and non-ASCII digits, which CPython also accepts, do not occur in
this code base and are outside the model.) -/
def pyIntParse (s : String) : Option Int :=
  match pyStrip s.toList with
  | '-' :: ds => (digitsVal ds).map (fun n => -(n : Int))
  | '+' :: ds => (digitsVal ds).map (fun n => (n : Int))
  | ds => (digitsVal ds).map (fun n => (n : Int))

/-- Character class of the regular expression `[^0-9]` complement: an ASCII
digit. -/
def isAsciiDigit (c : Char) : Bool :=
  decide ('0' ≤ c) && decide (c ≤ '9')

/-- Models Python `str.split(sep)` for a one-character separator, on the
character list of the string.  `pySplitOn sep l` is the list of fields of
`l` between occurrences of `sep`; it is never empty. -/
def pySplitOn (sep : Char) : List Char → List (List Char)
  | [] => [[]]
  | c :: cs =>
    if c = sep then [] :: pySplitOn sep cs
    else
      match pySplitOn sep cs with
      | [] => [[c]]
      | h :: t => (c :: h) :: t

/-- Embeds `seller.price_conversion` (src/seller.py lines 290-310):
`re.sub("[^0-9]", "", price.split(".")[0])` — field 0 of the split on `.`,
with every non-digit removed. -/
def price_conversion (price : String) : String :=
  String.mk (((pySplitOn '.' price.toList).headD []).filter isAsciiDigit)

/-- Specification-side phrase of the claims: the substring of `p` before its
first `.` character (all of `p` when it has no dot), as a character list. -/
def beforeFirstDot (p : String) : List Char :=
  p.toList.takeWhile (fun c => c != '.')

/-- Modelled domain of a raw spreadsheet quantity cell as the XLS loader
delivers it: a text cell, an integer cell, or a whole-valued float cell
(pandas yields float64 for numeric cells; stock counts are whole numbers,
so the model restricts float cells to integral values, where Python's
`str` and `int` have the exact simple forms below). -/
inductive PyVal where
  | str (s : String)
  | intlit (n : Int)
  | floatlit (n : Int)
deriving DecidableEq

/-- Python `str(...)` of a modelled cell value: text unchanged, integers in
decimal, whole-valued floats in decimal with a trailing `".0"` (as CPython
prints them). -/
def pyStr : PyVal → String
  | .str s => s
  | .intlit n => n.repr
  | .floatlit n => n.repr ++ ".0"

/-- Python `int(...)` applied to a modelled raw cell value: strings are
parsed (`pyIntParse`), integer cells are returned unchanged, float cells
truncate toward zero — exact on the whole-valued floats of the model. -/
def pyInt : PyVal → Option Int
  | .str s => pyIntParse s
  | .intlit n => some n
  | .floatlit n => some n

/-- One supplier row as the reconciliation code reads it:
`str(watch.get("Код"))` (`code`), the raw quantity cell
(`watch.get("Количество")`, `quantity`) and the price text (`price`). -/
structure WatchRecord where
  code : String
  quantity : PyVal
  price : String
deriving DecidableEq

/-- One element of the list built by `seller.create_stocks`:
`{"offer_id": ..., "stock": ...}`. -/
structure StockItem where
  offer_id : String
  stock : Int
deriving DecidableEq

/-- Embeds the quantity-normalisation branch shared by
`seller.create_stocks` (src/seller.py lines 238-244) and
`market.create_stocks` (src/market.py lines 197-203): `count = str(cell)`
is compared with the sentinel `">10"` (to 100) and the sentinel `"1"`
(to 0); the fall-through applies `int(...)` to the raw cell value
(`int(watch.get("Количество"))`, seller.py line 244 / market.py line 203),
not to `count`, and may raise (`none`). -/
def normalizeQuantity (cell : PyVal) : Option Int :=
  if pyStr cell = ">10" then some 100
  else if pyStr cell = "1" then some 0
  else pyInt cell

/-- Embeds the first loop of `seller.create_stocks` (src/seller.py lines
236-246).  The state of the mutated `offer_ids` list is passed explicitly;
the result pairs the matched stock entries (in feed order) with the final
state of `offer_ids`.  `none` models the `ValueError` escaping the call. -/
def create_stocksLoop : List WatchRecord → List String →
    Option (List StockItem × List String)
  | [], offer_ids => some ([], offer_ids)
  | w :: ws, offer_ids =>
    if w.code ∈ offer_ids then
      (normalizeQuantity w.quantity).bind fun st =>
        (create_stocksLoop ws (offer_ids.erase w.code)).map fun r =>
          (⟨w.code, st⟩ :: r.1, r.2)
    else create_stocksLoop ws offer_ids

/-- Embeds `seller.create_stocks` (src/seller.py lines 211-249): the
matching loop followed by the zero-fill loop over the identifiers still in
`offer_ids`.  The second component of the result is the final state of the
caller's `offer_ids` list, which the Python function mutates in place. -/
def create_stocks (watch_remnants : List WatchRecord) (offer_ids : List String) :
    Option (List StockItem × List String) :=
  (create_stocksLoop watch_remnants offer_ids).map fun r =>
    (r.1 ++ r.2.map (fun oid => ⟨oid, 0⟩), r.2)

/-- One element of the list built by `seller.create_prices`
(src/seller.py lines 279-285). -/
structure PriceItem where
  auto_action_enabled : String
  currency_code : String
  offer_id : String
  old_price : String
  price : String
deriving DecidableEq

/-- Embeds `seller.create_prices` (src/seller.py lines 252-287): one price
entry, in feed order, for every supplier row whose code is a member of
`offer_ids`; the membership test does not change `offer_ids`. -/
def create_prices : List WatchRecord → List String → List PriceItem
  | [], _ => []
  | w :: ws, offer_ids =>
    if w.code ∈ offer_ids then
      ⟨"UNKNOWN", "RUB", w.code, "0", price_conversion w.price⟩ ::
        create_prices ws offer_ids
    else create_prices ws offer_ids

/-- One element of the `items` list inside a Yandex Market stock entry
(src/market.py lines 208-215). -/
structure MarketStockEntry where
  count : Int
  type : String
  updatedAt : String
deriving DecidableEq

/-- One element of the list built by `market.create_stocks`
(src/market.py lines 204-216). -/
structure MarketStockItem where
  sku : String
  warehouseId : String
  items : List MarketStockEntry
deriving DecidableEq

/-- The Yandex Market stock entry built from a seller stock entry: same SKU
and count, wrapped with the warehouse id, the `"FIT"` type tag and the
timestamp.  Used only to relate the two `create_stocks` variants. -/
def marketItemOf (warehouse_id date : String) (it : StockItem) : MarketStockItem :=
  ⟨it.offer_id, warehouse_id, [⟨it.stock, "FIT", date⟩]⟩

/-- Embeds the matching loop of `market.create_stocks` (src/market.py lines
195-217); `date` is the timestamp string computed once at line 194. -/
def market_create_stocksLoop (warehouse_id date : String) :
    List WatchRecord → List String → Option (List MarketStockItem × List String)
  | [], offer_ids => some ([], offer_ids)
  | w :: ws, offer_ids =>
    if w.code ∈ offer_ids then
      (normalizeQuantity w.quantity).bind fun st =>
        (market_create_stocksLoop warehouse_id date ws (offer_ids.erase w.code)).map
          fun r => (⟨w.code, warehouse_id, [⟨st, "FIT", date⟩]⟩ :: r.1, r.2)
    else market_create_stocksLoop warehouse_id date ws offer_ids

/-- Embeds `market.create_stocks` (src/market.py lines 169-232): matching
loop, then zero-fill entries for the identifiers still in `offer_ids`.  As
in the seller variant, the second component is the final state of the
caller's `offer_ids` list. -/
def market_create_stocks (watch_remnants : List WatchRecord)
    (offer_ids : List String) (warehouse_id date : String) :
    Option (List MarketStockItem × List String) :=
  (market_create_stocksLoop warehouse_id date watch_remnants offer_ids).map fun r =>
    (r.1 ++ r.2.map (fun oid => ⟨oid, warehouse_id, [⟨0, "FIT", date⟩]⟩), r.2)

/-- The `price` object of a Yandex Market price entry
(src/market.py lines 262-267). -/
structure MarketPriceValue where
  value : Int
  currencyId : String
deriving DecidableEq

/-- One element of the list built by `market.create_prices`
(src/market.py lines 259-270). -/
structure MarketPriceItem where
  id : String
  price : MarketPriceValue
deriving DecidableEq

/-- Embeds `market.create_prices` (src/market.py lines 235-272): one entry
per matched supplier row, in feed order; the entry value is
`int(price_conversion(...))`, whose `ValueError` (modelled by `none`)
aborts the whole call. -/
def market_create_prices : List WatchRecord → List String →
    Option (List MarketPriceItem)
  | [], _ => some []
  | w :: ws, offer_ids =>
    if w.code ∈ offer_ids then
      (pyIntParse (price_conversion w.price)).bind fun v =>
        (market_create_prices ws offer_ids).map fun rest =>
          ⟨w.code, ⟨v, "RUR"⟩⟩ :: rest
    else market_create_prices ws offer_ids

/-- Embeds `seller.divide` (src/seller.py lines 313-332): the chunks
`lst[i : i + n]` for `i = 0, n, 2n, ...`, materialised as a list.  The
guard on `n = 0` is vacuous for the program, which only calls `divide`
with positive `n` (Python `range` with step 0 raises). -/
def divide {α : Type} (lst : List α) (n : Nat) : List (List α) :=
  if hstep : lst.isEmpty ∨ n = 0 then []
  else lst.take n :: divide (lst.drop n) n
termination_by lst.length
decreasing_by
  rcases not_or.mp hstep with ⟨h1, h2⟩
  simp only [List.length_drop]
  refine Nat.sub_lt (List.length_pos.mpr ?_) (Nat.pos_of_ne_zero h2)
  intro e
  exact h1 (by simp [e])

/-- Projection of a Yandex Market stock entry that forgets the `updatedAt`
timestamps, used to compare runs made at different times. -/
def stripTime (it : MarketStockItem) : String × String × List (Int × String) :=
  (it.sku, it.warehouseId, it.items.map fun e => (e.count, e.type))

/-! ### Helper lemmas -/

theorem pySplitOn_ne_nil (sep : Char) (l : List Char) : pySplitOn sep l ≠ [] := by
  induction l with
  | nil => simp [pySplitOn]
  | cons c cs ih =>
    simp only [pySplitOn]
    by_cases hc : c = sep
    · simp [hc]
    · rw [if_neg hc]
      rcases h : pySplitOn sep cs with _ | ⟨hd, tl⟩
      · exact absurd h ih
      · simp

theorem pySplitOn_headD (sep : Char) (l : List Char) :
    (pySplitOn sep l).headD [] = l.takeWhile (fun c => c != sep) := by
  induction l with
  | nil => simp [pySplitOn]
  | cons c cs ih =>
    simp only [pySplitOn]
    by_cases hc : c = sep
    · subst hc
      simp [List.takeWhile_cons]
    · rw [if_neg hc]
      rcases h : pySplitOn sep cs with _ | ⟨hd, tl⟩
      · exact absurd h (pySplitOn_ne_nil sep cs)
      · rw [h] at ih
        simp only [List.headD_cons] at ih ⊢
        simp [List.takeWhile_cons, bne_iff_ne, hc, ih]

theorem price_conversion_eq (p : String) :
    price_conversion p = String.mk ((beforeFirstDot p).filter isAsciiDigit) := by
  unfold price_conversion beforeFirstDot
  rw [pySplitOn_headD]

theorem create_prices_eq_filter (S : List WatchRecord) (U : List String) :
    create_prices S U = (S.filter fun w => decide (w.code ∈ U)).map
      (fun w => ⟨"UNKNOWN", "RUB", w.code, "0", price_conversion w.price⟩) := by
  induction S with
  | nil => rfl
  | cons w ws ih =>
    by_cases h : w.code ∈ U
    · simp [create_prices, h, ih, List.filter_cons]
    · simp [create_prices, h, ih, List.filter_cons]

theorem mem_create_prices (S : List WatchRecord) (U : List String)
    (w : WatchRecord) (hw : w ∈ S) (hmem : w.code ∈ U) :
    (⟨"UNKNOWN", "RUB", w.code, "0", price_conversion w.price⟩ : PriceItem) ∈
      create_prices S U := by
  induction S with
  | nil => cases hw
  | cons u us ih =>
    rcases List.mem_cons.mp hw with rfl | hmem2
    · simp [create_prices, hmem]
    · by_cases hu : u.code ∈ U <;> simp [create_prices, hu, ih hmem2]

theorem market_create_prices_ids (S : List WatchRecord) (U : List String) :
    ∀ ps : List MarketPriceItem, market_create_prices S U = some ps →
    ps.map MarketPriceItem.id =
      (S.filter fun w => decide (w.code ∈ U)).map WatchRecord.code := by
  induction S with
  | nil =>
    intro ps h
    simp [market_create_prices] at h
    subst h
    rfl
  | cons w ws ih =>
    intro ps h
    by_cases hm : w.code ∈ U
    · simp only [market_create_prices, if_pos hm] at h
      cases hp : pyIntParse (price_conversion w.price) with
      | none => rw [hp] at h; simp at h
      | some v =>
        rw [hp] at h
        cases hrec : market_create_prices ws U with
        | none => rw [hrec] at h; simp at h
        | some rest =>
          rw [hrec] at h
          simp only [Option.some_bind, Option.map_some', Option.some.injEq] at h
          subst h
          simp [List.filter_cons, hm, ih rest hrec]
    · simp only [market_create_prices, if_neg hm] at h
      simp [List.filter_cons, hm, ih ps h]

theorem market_create_prices_none (S : List WatchRecord) (U : List String)
    (w : WatchRecord) (hw : w ∈ S) (hmem : w.code ∈ U)
    (hp : pyIntParse (price_conversion w.price) = none) :
    market_create_prices S U = none := by
  induction S with
  | nil => cases hw
  | cons u us ih =>
    rcases List.mem_cons.mp hw with rfl | hmem2
    · simp [market_create_prices, hmem, hp]
    · by_cases hu : u.code ∈ U
      · simp only [market_create_prices, if_pos hu, ih hmem2]
        cases pyIntParse (price_conversion u.price) <;> simp
      · simp [market_create_prices, hu, ih hmem2]

theorem create_stocksLoop_shape (S : List WatchRecord) :
    ∀ (U : List String) (m : List StockItem) (rem : List String),
    create_stocksLoop S U = some (m, rem) →
    (m.map StockItem.offer_id ++ rem).Perm U ∧ rem.Sublist U ∧
      (m.map StockItem.offer_id).Sublist (S.map WatchRecord.code) := by
  induction S with
  | nil =>
    intro U m rem h
    simp only [create_stocksLoop, Option.some.injEq, Prod.mk.injEq] at h
    obtain ⟨hm, hrem⟩ := h
    subst hm
    subst hrem
    exact ⟨by simp, List.Sublist.refl U, List.nil_sublist _⟩
  | cons w ws ih =>
    intro U m rem h
    by_cases hmem : w.code ∈ U
    · simp only [create_stocksLoop, if_pos hmem] at h
      cases hq : normalizeQuantity w.quantity with
      | none => rw [hq] at h; simp at h
      | some st =>
        rw [hq] at h
        cases hrec : create_stocksLoop ws (U.erase w.code) with
        | none => rw [hrec] at h; simp at h
        | some r =>
          obtain ⟨m', rem'⟩ := r
          rw [hrec] at h
          simp only [Option.some_bind, Option.map_some', Option.some.injEq,
            Prod.mk.injEq] at h
          obtain ⟨hm, hrem⟩ := h
          subst hm
          subst hrem
          obtain ⟨p1, p2, p3⟩ := ih (U.erase w.code) m' rem' hrec
          refine ⟨?_, p2.trans (List.erase_sublist _ _), ?_⟩
          · simpa using (p1.cons w.code).trans (List.perm_cons_erase hmem).symm
          · simpa using p3.cons₂ w.code
    · simp only [create_stocksLoop, if_neg hmem] at h
      obtain ⟨p1, p2, p3⟩ := ih U m rem h
      exact ⟨p1, p2, by simpa using p3.cons w.code⟩

theorem create_stocksLoop_append (pre rest : List WatchRecord) :
    ∀ U : List String,
    create_stocksLoop (pre ++ rest) U =
      (create_stocksLoop pre U).bind fun r =>
        (create_stocksLoop rest r.2).map fun r2 => (r.1 ++ r2.1, r2.2) := by
  induction pre with
  | nil =>
    intro U
    simp only [List.nil_append, create_stocksLoop, Option.some_bind]
    cases h : create_stocksLoop rest U with
    | none => rfl
    | some r => rfl
  | cons w pre2 ih =>
    intro U
    by_cases hmem : w.code ∈ U
    · simp only [List.cons_append, create_stocksLoop, if_pos hmem, List.append_eq, ih]
      cases hq : normalizeQuantity w.quantity with
      | none => rfl
      | some st =>
        simp only [Option.some_bind]
        cases h1 : create_stocksLoop pre2 (U.erase w.code) with
        | none => rfl
        | some r =>
          simp only [Option.some_bind, Option.map_some']
          cases h2 : create_stocksLoop rest r.2 with
          | none => rfl
          | some r2 => simp
    · simp only [List.cons_append, create_stocksLoop, if_neg hmem, List.append_eq, ih]

theorem create_stocksLoop_unmatched (S : List WatchRecord) :
    ∀ (U : List String) (m : List StockItem) (rem : List String),
    U.Nodup → create_stocksLoop S U = some (m, rem) →
    ∀ w ∈ S, w.code ∉ rem := by
  induction S with
  | nil =>
    intro U m rem _ _ w hw
    cases hw
  | cons u us ih =>
    intro U m rem hU h w hw
    by_cases hmem : u.code ∈ U
    · simp only [create_stocksLoop, if_pos hmem] at h
      cases hq : normalizeQuantity u.quantity with
      | none => rw [hq] at h; simp at h
      | some st =>
        rw [hq] at h
        cases hrec : create_stocksLoop us (U.erase u.code) with
        | none => rw [hrec] at h; simp at h
        | some r =>
          obtain ⟨m', rem'⟩ := r
          rw [hrec] at h
          simp only [Option.some_bind, Option.map_some', Option.some.injEq,
            Prod.mk.injEq] at h
          obtain ⟨hm, hrem⟩ := h
          rw [hrem] at hrec
          rcases List.mem_cons.mp hw with rfl | hw2
          · have hsub := (create_stocksLoop_shape us (U.erase w.code) m' rem hrec).2.1
            intro hin
            have hin2 : w.code ∈ U.erase w.code := hsub.subset hin
            rw [List.Nodup.mem_erase_iff hU] at hin2
            exact hin2.1 rfl
          · exact ih (U.erase u.code) m' rem (hU.erase _) hrec w hw2
    · simp only [create_stocksLoop, if_neg hmem] at h
      rcases List.mem_cons.mp hw with rfl | hw2
      · have hsub := (create_stocksLoop_shape us U m rem h).2.1
        intro hin
        exact hmem (hsub.subset hin)
      · exact ih U m rem hU h w hw2

theorem market_create_stocksLoop_eq (wh d : String) (S : List WatchRecord) :
    ∀ U : List String,
    market_create_stocksLoop wh d S U =
      (create_stocksLoop S U).map fun r => (r.1.map (marketItemOf wh d), r.2) := by
  induction S with
  | nil => intro U; rfl
  | cons w ws ih =>
    intro U
    by_cases hmem : w.code ∈ U
    · simp only [market_create_stocksLoop, create_stocksLoop, if_pos hmem, ih]
      cases hq : normalizeQuantity w.quantity with
      | none => rfl
      | some st =>
        simp only [Option.some_bind]
        cases h1 : create_stocksLoop ws (U.erase w.code) with
        | none => rfl
        | some r => simp [marketItemOf]
    · simp only [market_create_stocksLoop, create_stocksLoop, if_neg hmem, ih]

theorem market_create_stocks_eq (S : List WatchRecord) (U : List String)
    (wh d : String) :
    market_create_stocks S U wh d =
      (create_stocks S U).map fun r => (r.1.map (marketItemOf wh d), r.2) := by
  unfold market_create_stocks create_stocks
  rw [market_create_stocksLoop_eq]
  cases h : create_stocksLoop S U with
  | none => rfl
  | some r =>
    simp [List.map_append, List.map_map, marketItemOf, Function.comp]

theorem create_stocks_eq_some (S : List WatchRecord) (U : List String)
    (st : List StockItem) (rem : List String)
    (h : create_stocks S U = some (st, rem)) :
    ∃ m, create_stocksLoop S U = some (m, rem) ∧
      st = m ++ rem.map (fun oid => ⟨oid, 0⟩) := by
  unfold create_stocks at h
  cases hl : create_stocksLoop S U with
  | none => rw [hl] at h; cases h
  | some r =>
    rw [hl] at h
    simp only [Option.map_some', Option.some.injEq, Prod.mk.injEq] at h
    obtain ⟨hst, hrem⟩ := h
    subst hrem
    exact ⟨r.1, rfl, hst.symm⟩

theorem create_stocks_none_iff (S : List WatchRecord) (U : List String) :
    create_stocks S U = none ↔ create_stocksLoop S U = none := by
  unfold create_stocks
  cases h : create_stocksLoop S U <;> simp

theorem divide_nil {α : Type} (n : Nat) : divide ([] : List α) n = [] := by
  rw [divide]
  simp

theorem divide_cons {α : Type} (lst : List α) (n : Nat) (hl : lst ≠ [])
    (hn : n ≠ 0) : divide lst n = lst.take n :: divide (lst.drop n) n := by
  rw [divide]
  rw [dif_neg]
  simp [hl, hn]

theorem divide_eq_nil_iff {α : Type} (lst : List α) (n : Nat) (hn : n ≠ 0) :
    divide lst n = [] ↔ lst = [] := by
  constructor
  · intro h
    by_contra hne
    rw [divide_cons lst n hne hn] at h
    cases h
  · intro h
    subst h
    exact divide_nil n

theorem divide_join_fuel {α : Type} (n : Nat) (hn : n ≠ 0) :
    ∀ (k : Nat) (lst : List α), lst.length ≤ k → (divide lst n).flatten = lst := by
  intro k
  induction k with
  | zero =>
    intro lst hl
    have he : lst = [] := List.length_eq_zero.mp (Nat.le_zero.mp hl)
    subst he
    simp [divide_nil]
  | succ k ih =>
    intro lst hl
    by_cases he : lst = []
    · subst he
      simp [divide_nil]
    · rw [divide_cons lst n he hn]
      have hdrop : (lst.drop n).length ≤ k := by
        rw [List.length_drop]
        have h1 : lst.length - n ≤ lst.length - 1 :=
          Nat.sub_le_sub_left (Nat.one_le_iff_ne_zero.mpr hn) lst.length
        have h2 : lst.length - 1 ≤ k := by omega
        exact le_trans h1 h2
      rw [List.flatten_cons, ih (lst.drop n) hdrop, List.take_append_drop]

theorem divide_mem_fuel {α : Type} (n : Nat) (hn : n ≠ 0) :
    ∀ (k : Nat) (lst : List α), lst.length ≤ k →
    ∀ c ∈ divide lst n, c.length ≤ n ∧ c ≠ [] := by
  intro k
  induction k with
  | zero =>
    intro lst hl c hc
    have he : lst = [] := List.length_eq_zero.mp (Nat.le_zero.mp hl)
    subst he
    rw [divide_nil] at hc
    cases hc
  | succ k ih =>
    intro lst hl c hc
    by_cases he : lst = []
    · subst he
      rw [divide_nil] at hc
      cases hc
    · rw [divide_cons lst n he hn] at hc
      rcases List.mem_cons.mp hc with rfl | hc2
      · constructor
        · simp [List.length_take]
        · intro htake
          rcases List.take_eq_nil_iff.mp htake with h | h
          · exact hn h
          · exact he h
      · have hdrop : (lst.drop n).length ≤ k := by
          rw [List.length_drop]
          have h1 : lst.length - n ≤ lst.length - 1 :=
            Nat.sub_le_sub_left (Nat.one_le_iff_ne_zero.mpr hn) lst.length
          omega
        exact ih (lst.drop n) hdrop c hc2

theorem divide_dropLast_fuel {α : Type} (n : Nat) (hn : n ≠ 0) :
    ∀ (k : Nat) (lst : List α), lst.length ≤ k →
    ∀ c ∈ (divide lst n).dropLast, c.length = n := by
  intro k
  induction k with
  | zero =>
    intro lst hl c hc
    have he : lst = [] := List.length_eq_zero.mp (Nat.le_zero.mp hl)
    subst he
    rw [divide_nil] at hc
    cases hc
  | succ k ih =>
    intro lst hl c hc
    by_cases he : lst = []
    · subst he
      rw [divide_nil] at hc
      cases hc
    · rw [divide_cons lst n he hn] at hc
      cases hrest : divide (lst.drop n) n with
      | nil =>
        rw [hrest] at hc
        cases hc
      | cons r rs =>
        rw [hrest, List.dropLast_cons_of_ne_nil (List.cons_ne_nil r rs)] at hc
        rcases List.mem_cons.mp hc with rfl | hc2
        · have hd : lst.drop n ≠ [] := by
            intro hdn
            rw [hdn, divide_nil] at hrest
            cases hrest
          have hlen : n < lst.length := by
            by_contra hge
            exact hd (List.drop_eq_nil_of_le (Nat.le_of_not_lt hge))
          simp [List.length_take, Nat.min_eq_left (Nat.le_of_lt hlen)]
        · have hdrop : (lst.drop n).length ≤ k := by
            rw [List.length_drop]
            have h1 : lst.length - n ≤ lst.length - 1 :=
              Nat.sub_le_sub_left (Nat.one_le_iff_ne_zero.mpr hn) lst.length
            omega
          have := ih (lst.drop n) hdrop c
          rw [hrest] at this
          exact this hc2

/-! ### Claim theorems -/

/-- C5: for every input string `p`, `price_conversion p` equals the substring
of `p` before its first dot with every character that is not an ASCII digit
removed; the listed examples evaluate as stated and the function is total
(no failure case). -/
theorem price_conversion_before_first_dot :
    (∀ p : String, price_conversion p =
      String.mk ((beforeFirstDot p).filter isAsciiDigit)) ∧
    price_conversion "5\x27990.00 руб." = "5990" ∧
    price_conversion "1234.50" = "1234" ∧
    price_conversion "" = "" :=
  ⟨price_conversion_eq, by decide, by decide, by decide⟩

/-- C3 counterexample: a whole-valued float quantity cell 5.0 has string
form `"5.0"`, which the claimed rules reject (it is neither sentinel, and
`"5.0"` is not base-10 integer-parseable), yet normalization returns 5:
the fall-through applies `int(...)` to the raw cell, not to its string
form. -/
theorem normalize_quantity_raw_cell_cex :
    pyStr (PyVal.floatlit 5) = "5.0" ∧
    pyIntParse "5.0" = none ∧
    normalizeQuantity (PyVal.floatlit 5) = some 5 :=
  ⟨by decide, by decide, by decide⟩

/-- C3 (amended): the sentinel rules are checked against the token's string
form in the stated order — `">10"` gives 100 though the parse rejects it,
`"1"` gives 0 though the parse would read 1 — but the fall-through applies
the integer conversion to the raw token, not to its string form: on a
string token this is the base-10 parse of the string, while a numeric
token converts numerically (a whole-valued float cell 1.0 gives 1: neither
the `"1"` sentinel's 0 nor a parse failure on `"1.0"`). -/
theorem normalize_quantity_rules :
    normalizeQuantity (PyVal.str ">10") = some 100 ∧
    normalizeQuantity (PyVal.str "1") = some 0 ∧
    normalizeQuantity (PyVal.str "7") = some 7 ∧
    pyIntParse ">10" = none ∧
    pyIntParse "1" = some 1 ∧
    normalizeQuantity (PyVal.floatlit 1) = some 1 ∧
    (∀ v : PyVal, pyStr v ≠ ">10" → pyStr v ≠ "1" →
      normalizeQuantity v = pyInt v) ∧
    (∀ s : String, s ≠ ">10" → s ≠ "1" →
      normalizeQuantity (PyVal.str s) = pyIntParse s) := by
  refine ⟨by decide, by decide, by decide, by decide, by decide, by decide,
    ?_, ?_⟩
  · intro v h1 h2
    simp [normalizeQuantity, h1, h2]
  · intro s h1 h2
    simp [normalizeQuantity, pyStr, pyInt, h1, h2]

/-- Witness for the amended C3 at the non-sentinel float cell 3.0. -/
theorem normalize_quantity_rules_witness :
    pyStr (PyVal.floatlit 3) ≠ ">10" ∧ pyStr (PyVal.floatlit 3) ≠ "1" ∧
      normalizeQuantity (PyVal.floatlit 3) = pyInt (PyVal.floatlit 3) :=
  ⟨by decide, by decide,
    normalize_quantity_rules.2.2.2.2.2.2.1 (PyVal.floatlit 3)
      (by decide) (by decide)⟩

/-- C7: for every list and positive chunk size `n`, `divide` yields
contiguous chunks whose concatenation is the input, every chunk is
non-empty of length at most `n`, every chunk except possibly the last has
length exactly `n`, and the empty list yields no chunks. -/
theorem divide_chunks_spec (α : Type) (lst : List α) (n : Nat) (hn : 0 < n) :
    (divide lst n).flatten = lst ∧
    (∀ c ∈ divide lst n, c.length ≤ n ∧ c ≠ []) ∧
    (∀ c ∈ (divide lst n).dropLast, c.length = n) ∧
    divide ([] : List α) n = [] := by
  have hn2 : n ≠ 0 := Nat.pos_iff_ne_zero.mp hn
  exact ⟨divide_join_fuel n hn2 lst.length lst le_rfl,
    divide_mem_fuel n hn2 lst.length lst le_rfl,
    divide_dropLast_fuel n hn2 lst.length lst le_rfl,
    divide_nil n⟩

/-- Witness for C7 at `[1, 2, 3]` with chunk size 2. -/
theorem divide_chunks_spec_witness :
    0 < 2 ∧ (divide [1, 2, 3] 2).flatten = [1, 2, 3] :=
  ⟨by decide, (divide_chunks_spec Nat [1, 2, 3] 2 (by decide)).1⟩

/-- C1: on a duplicate-free offer universe, a successful stock
reconciliation returns exactly one entry per universe member — the length
equals the universe size, the offer identifiers are a permutation of the
universe with no duplicates — ordered as the supplier-matched entries (in
feed order) followed by the unmatched members with quantity 0 (in original
universe order); the market variant produces the same identifiers in the
same order for any warehouse id and timestamp. -/
theorem create_stocks_covers_universe (S : List WatchRecord) (U : List String)
    (hU : U.Nodup) (st : List StockItem) (rem : List String)
    (h : create_stocks S U = some (st, rem)) :
    st.length = U.length ∧
    (st.map StockItem.offer_id).Perm U ∧
    (st.map StockItem.offer_id).Nodup ∧
    (∃ matched, st = matched ++ rem.map (fun oid => StockItem.mk oid 0) ∧
      (matched.map StockItem.offer_id).Sublist (S.map WatchRecord.code) ∧
      rem.Sublist U) ∧
    ∀ wh d st2 rem2, market_create_stocks S U wh d = some (st2, rem2) →
      st2.map MarketStockItem.sku = st.map StockItem.offer_id ∧ rem2 = rem ∧
      st2.length = U.length := by
  obtain ⟨m, hloop, hst⟩ := create_stocks_eq_some S U st rem h
  obtain ⟨p1, p2, p3⟩ := create_stocksLoop_shape S U m rem hloop
  have hids : st.map StockItem.offer_id = m.map StockItem.offer_id ++ rem := by
    subst hst
    simp only [List.map_append, List.map_map]
    congr 1
    exact List.map_id rem
  have hperm : (st.map StockItem.offer_id).Perm U := by rw [hids]; exact p1
  have hlen : st.length = U.length := by simpa using hperm.length_eq
  refine ⟨hlen, hperm, hperm.nodup_iff.mpr hU, ⟨m, hst, p3, p2⟩, ?_⟩
  intro wh d st2 rem2 h2
  rw [market_create_stocks_eq S U wh d, h] at h2
  simp only [Option.map_some', Option.some.injEq, Prod.mk.injEq] at h2
  obtain ⟨hst2, hrem2⟩ := h2
  refine ⟨?_, hrem2.symm, ?_⟩
  · rw [← hst2]
    simp [List.map_map, marketItemOf, Function.comp]
  · rw [← hst2]
    simpa using hlen

/-- Witness for C1 at one matched and one unmatched offer. -/
theorem create_stocks_covers_universe_witness :
    (["A", "B"] : List String).Nodup ∧
    create_stocks [⟨"A", PyVal.str "5", "10"⟩] ["A", "B"] =
      some ([⟨"A", 5⟩, ⟨"B", 0⟩], ["B"]) ∧
    ([⟨"A", 5⟩, ⟨"B", 0⟩] : List StockItem).length =
      (["A", "B"] : List String).length :=
  ⟨by decide, by decide,
    (create_stocks_covers_universe [⟨"A", PyVal.str "5", "10"⟩] ["A", "B"] (by decide)
        [⟨"A", 5⟩, ⟨"B", 0⟩] ["B"] (by decide)).1⟩

/-- C2 counterexample: with one supplier record matching the single
universe member, the caller's `offer_ids` list ends up empty — it is not
the `["A"]` that was passed in, so stock reconciliation does not operate on
a copy of the universe. -/
theorem create_stocks_mutates_universe_cex :
    create_stocks [⟨"A", PyVal.str "5", "10"⟩] ["A"] = some ([⟨"A", 5⟩], []) ∧
    ([] : List String) ≠ (["A"] : List String) :=
  ⟨by decide, by decide⟩

/-- C2 (amended): stock reconciliation mutates the caller's `offer_ids`
list rather than copying it: after a successful call the list holds the
unmatched identifiers — a sublist of the original in original order — and
it is unchanged exactly when no supplier record matched (every stock entry
is a zero-fill); the market variant applies the identical mutation, and
apart from this mutation (and the market timestamp argument) both
reconciliation operations are functions of their argument values. -/
theorem create_stocks_residual_universe (S : List WatchRecord) (U : List String)
    (st : List StockItem) (rem : List String)
    (h : create_stocks S U = some (st, rem)) :
    rem.Sublist U ∧
    (rem = U ↔ st = rem.map (fun oid => StockItem.mk oid 0)) ∧
    ∀ wh d, market_create_stocks S U wh d =
      (create_stocks S U).map fun r => (r.1.map (marketItemOf wh d), r.2) := by
  obtain ⟨m, hloop, hst⟩ := create_stocks_eq_some S U st rem h
  obtain ⟨p1, p2, _⟩ := create_stocksLoop_shape S U m rem hloop
  refine ⟨p2, ?_, fun wh d => market_create_stocks_eq S U wh d⟩
  constructor
  · intro hrem
    have hlen := p1.length_eq
    rw [hrem] at hlen
    simp only [List.length_append, List.length_map] at hlen
    have hm : m = [] := List.length_eq_zero.mp (by omega)
    subst hm
    simpa using hst
  · intro hstz
    rw [hstz] at hst
    have hm : m = [] := by
      have hlen := congrArg List.length hst
      simp only [List.length_append, List.length_map] at hlen
      exact List.length_eq_zero.mp (by omega)
    subst hm
    have hperm : rem.Perm U := by simpa using p1
    exact p2.eq_of_length hperm.length_eq

/-- Witness for the amended C2 at one matched record. -/
theorem create_stocks_residual_universe_witness :
    create_stocks [⟨"A", PyVal.str "5", "10"⟩] ["A"] = some ([⟨"A", 5⟩], []) ∧
    ([] : List String).Sublist (["A"] : List String) :=
  ⟨by decide,
    (create_stocks_residual_universe [⟨"A", PyVal.str "5", "10"⟩] ["A"]
        [⟨"A", 5⟩] [] (by decide)).1⟩

/-- C4 counterexample: the second supplier record has SKU `"A"` — a member
of the offer universe `["A"]` — and the unparseable token `"abc"`, yet
reconciliation returns an update list: the first record already removed
`"A"` from the universe, so the malformed record is skipped unparsed. -/
theorem bad_quantity_skipped_duplicate_cex :
    normalizeQuantity (PyVal.str "abc") = none ∧
    ("A" : String) ∈ (["A"] : List String) ∧
    create_stocks [⟨"A", PyVal.str "5", "10"⟩, ⟨"A", PyVal.str "abc", "10"⟩] ["A"] =
      some ([⟨"A", 5⟩], []) :=
  ⟨by decide, by decide, by decide⟩

/-- C4 (amended): if a supplier record whose SKU is still in the mutable
offer universe when it is reached carries a quantity token that the
normalizer rejects, stock reconciliation fails as a whole — both variants
return no update list, regardless of the records that follow. -/
theorem bad_quantity_aborts_reconciliation (pre : List WatchRecord)
    (w : WatchRecord) (post : List WatchRecord) (U : List String)
    (hmem : ∀ r, create_stocksLoop pre U = some r → w.code ∈ r.2)
    (hq : normalizeQuantity w.quantity = none) :
    create_stocks (pre ++ w :: post) U = none ∧
    ∀ wh d, market_create_stocks (pre ++ w :: post) U wh d = none := by
  have hloop : create_stocksLoop (pre ++ w :: post) U = none := by
    rw [create_stocksLoop_append]
    cases hp : create_stocksLoop pre U with
    | none => rfl
    | some r =>
      have hw := hmem r hp
      simp [create_stocksLoop, if_pos hw, hq]
  constructor
  · exact (create_stocks_none_iff _ _).mpr hloop
  · intro wh d
    rw [market_create_stocks_eq, (create_stocks_none_iff _ _).mpr hloop]
    rfl

/-- Witness for the amended C4: a single malformed record matching the
universe aborts the call. -/
theorem bad_quantity_aborts_reconciliation_witness :
    normalizeQuantity (PyVal.str "abc") = none ∧
    create_stocks [⟨"A", PyVal.str "abc", "10"⟩] ["A"] = none :=
  ⟨by decide,
    (bad_quantity_aborts_reconciliation [] ⟨"A", PyVal.str "abc", "10"⟩ [] ["A"]
        (fun r hr => by
          simp only [create_stocksLoop, Option.some.injEq] at hr
          rw [← hr]
          decide)
        (by decide)).1⟩

/-- C6: price reconciliation produces one entry, in feed order, for exactly
the supplier records whose SKU is a member of the offer universe — the
output is the match-filtered feed mapped to price entries, so duplicate
supplier rows each produce an entry and the length is at most the feed
length; the market variant lists the same matched SKUs in the same order
whenever it succeeds. -/
theorem create_prices_matched_rows (S : List WatchRecord) (U : List String) :
    create_prices S U = (S.filter fun w => decide (w.code ∈ U)).map
      (fun w => ⟨"UNKNOWN", "RUB", w.code, "0", price_conversion w.price⟩) ∧
    (create_prices S U).length ≤ S.length ∧
    ∀ ps, market_create_prices S U = some ps →
      ps.map MarketPriceItem.id =
        (S.filter fun w => decide (w.code ∈ U)).map WatchRecord.code ∧
      ps.length ≤ S.length := by
  refine ⟨create_prices_eq_filter S U, ?_, ?_⟩
  · rw [create_prices_eq_filter S U]
    simpa using List.length_filter_le _ S
  · intro ps hps
    have hid := market_create_prices_ids S U ps hps
    refine ⟨hid, ?_⟩
    have hlen := congrArg List.length hid
    simp only [List.length_map] at hlen
    exact le_trans (le_of_eq hlen) (List.length_filter_le _ S)

/-- Witness for C6 at one matched record on the market variant. -/
theorem create_prices_matched_rows_witness :
    market_create_prices [⟨"A", PyVal.str "5", "100"⟩] ["A"] =
      some [⟨"A", ⟨100, "RUR"⟩⟩] ∧
    ([⟨"A", ⟨100, "RUR"⟩⟩] : List MarketPriceItem).map MarketPriceItem.id =
      (([⟨"A", PyVal.str "5", "100"⟩] : List WatchRecord).filter
        fun w => decide (w.code ∈ (["A"] : List String))).map WatchRecord.code :=
  ⟨by decide,
    ((create_prices_matched_rows [⟨"A", PyVal.str "5", "100"⟩] ["A"]).2.2
        [⟨"A", ⟨100, "RUR"⟩⟩] (by decide)).1⟩

/-- C8: reconciliation is repeatable — both seller operations return equal
results on equal argument values, and the market stock reconciliation run
with two different timestamps returns the same result once the `updatedAt`
fields are stripped. -/
theorem reconciliation_repeatable (S : List WatchRecord) (U : List String) :
    (∀ r1 r2, create_stocks S U = r1 → create_stocks S U = r2 → r1 = r2) ∧
    (∀ r1 r2, create_prices S U = r1 → create_prices S U = r2 → r1 = r2) ∧
    ∀ wh d1 d2,
      (market_create_stocks S U wh d1).map
        (fun r => (r.1.map stripTime, r.2)) =
      (market_create_stocks S U wh d2).map
        (fun r => (r.1.map stripTime, r.2)) := by
  refine ⟨?_, ?_, ?_⟩
  · intro r1 r2 h1 h2
    rw [← h1, ← h2]
  · intro r1 r2 h1 h2
    rw [← h1, ← h2]
  · intro wh d1 d2
    rw [market_create_stocks_eq S U wh d1, market_create_stocks_eq S U wh d2]
    cases h : create_stocks S U with
    | none => rfl
    | some r => simp [List.map_map, stripTime, marketItemOf, Function.comp]

/-- Witness for C8: two identical calls at a concrete input. -/
theorem reconciliation_repeatable_witness :
    (some ([⟨"A", 5⟩], ([] : List String)) :
        Option (List StockItem × List String)) =
      some ([⟨"A", 5⟩], []) :=
  (reconciliation_repeatable [⟨"A", PyVal.str "5", "10"⟩] ["A"]).1
    (some ([⟨"A", 5⟩], [])) (some ([⟨"A", 5⟩], [])) (by decide) (by decide)

/-- C9: after a successful seller stock reconciliation on a duplicate-free
fetched universe, every supplier SKU is absent from the mutated `offer_ids`
list (matched identifiers were removed), so the price list `seller.main`
computes from that same list is empty and batching it yields no pushes. -/
theorem seller_main_prices_empty (S : List WatchRecord) (U : List String)
    (hU : U.Nodup) (st : List StockItem) (rem : List String)
    (h : create_stocks S U = some (st, rem)) :
    (∀ w ∈ S, w.code ∉ rem) ∧
    create_prices S rem = [] ∧
    divide (create_prices S rem) 900 = [] := by
  obtain ⟨m, hloop, _⟩ := create_stocks_eq_some S U st rem h
  have hno : ∀ w ∈ S, w.code ∉ rem :=
    create_stocksLoop_unmatched S U m rem hU hloop
  have hempty : create_prices S rem = [] := by
    rw [create_prices_eq_filter]
    have hf : S.filter (fun w => decide (w.code ∈ rem)) = [] := by
      rw [List.filter_eq_nil_iff]
      intro w hw
      simpa using hno w hw
    rw [hf]
    rfl
  exact ⟨hno, hempty, by rw [hempty]; exact divide_nil 900⟩

/-- Witness for C9 at one matched record. -/
theorem seller_main_prices_empty_witness :
    (["A"] : List String).Nodup ∧
    create_prices [⟨"A", PyVal.str "5", "10"⟩] [] = [] :=
  ⟨by decide,
    (seller_main_prices_empty [⟨"A", PyVal.str "5", "10"⟩] ["A"] (by decide)
        [⟨"A", 5⟩] [] (by decide)).2.1⟩

/-- C10: a matched supplier record whose price token has no ASCII digit
before its first dot makes `market.create_prices` abort as a whole (the
empty digit string fails integer conversion), while `seller.create_prices`
— which never parses — emits an entry carrying the empty string as the
price. -/
theorem market_price_empty_digit_aborts (S : List WatchRecord)
    (U : List String) (w : WatchRecord) (hw : w ∈ S) (hmem : w.code ∈ U)
    (hd : ∀ c ∈ beforeFirstDot w.price, isAsciiDigit c = false) :
    price_conversion w.price = "" ∧
    market_create_prices S U = none ∧
    (⟨"UNKNOWN", "RUB", w.code, "0", ""⟩ : PriceItem) ∈ create_prices S U := by
  have hpc : price_conversion w.price = "" := by
    rw [price_conversion_eq]
    have hf : (beforeFirstDot w.price).filter isAsciiDigit = [] := by
      rw [List.filter_eq_nil_iff]
      intro c hc
      simp [hd c hc]
    rw [hf]
  refine ⟨hpc, ?_, ?_⟩
  · exact market_create_prices_none S U w hw hmem (by rw [hpc]; decide)
  · have hm := mem_create_prices S U w hw hmem
    rwa [hpc] at hm

/-- Witness for C10 at a record with price token `"x.5"`. -/
theorem market_price_empty_digit_aborts_witness :
    (⟨"A", PyVal.str "5", "x.5"⟩ : WatchRecord) ∈
      ([⟨"A", PyVal.str "5", "x.5"⟩] : List WatchRecord) ∧
    market_create_prices [⟨"A", PyVal.str "5", "x.5"⟩] ["A"] = none :=
  ⟨by decide,
    (market_price_empty_digit_aborts [⟨"A", PyVal.str "5", "x.5"⟩] ["A"]
        ⟨"A", PyVal.str "5", "x.5"⟩ (by decide) (by decide) (by decide)).2.1⟩
